import Mathlib

/-!
Shallow embedding of `serve.mjs` (a static development HTTP server) and
verification of its specification claims.

Conventions used throughout:
* JavaScript strings are modelled as Lean `String`s (lists of characters);
  the inputs exercised here are ASCII, where the two agree.
* Fallible or "no response written" outcomes are modelled with `Option`.
* Wall-clock time for the throttle is modelled by natural-number event
  timestamps; a `setTimeout(f, ms)` scheduled at time `t` fires at `t + ms`.
-/

deriving instance DecidableEq for Except

namespace Serve

/-! ### Throttle (serve.mjs, `throttle` / `watch`)

`throttle(ms, cb)` keeps the pair of flags `is_timed_out` /
`is_timeout_active`; the two are always set and cleared together, so the
closure state is equivalent to "the deadline of the pending timeout, if one
is pending".  A call while no timeout is pending invokes `cb` and schedules
the reset `ms` milliseconds later; a call before the reset is dropped.
`throttleStep` maps (state, event time) to (next state, whether `cb` ran). -/

def throttleStep (ms : Nat) (st : Option Nat) (t : Nat) : Option Nat × Bool :=
  match st with
  | none => (some (t + ms), true)
  | some d => if t < d then (some d, false) else (some (t + ms), true)

/-- Runs a monotone list of event times through the throttle, returning for
each event whether the callback fired. -/
def throttleTrace (ms : Nat) : Option Nat → List Nat → List Bool
  | _, [] => []
  | st, t :: ts => (throttleStep ms st t).2 :: throttleTrace ms (throttleStep ms st t).1 ts

/-- The debounce window used by `watch` in serve.mjs: `throttle(100, cb)`. -/
def watchThrottleMs : Nat := 100

/-! ### Live-reload client registry (serve.mjs, `SSERegister` / `SSESendReload`)

`sse_connections` is a JS `Map<string, ServerResponse>`: insertion-ordered,
`set` replaces the value of an existing key in place, `delete` removes the
entry.  Connections are identified by opaque numeric ids. -/

/-- Model of `Map.prototype.set` on an insertion-ordered association list. -/
def sseSet (m : List (String × Nat)) (k : String) (v : Nat) : List (String × Nat) :=
  if m.any (fun p => decide (p.1 = k)) then
    m.map (fun p => if p.1 = k then (k, v) else p)
  else m ++ [(k, v)]

/-- Model of `Map.prototype.delete`. -/
def sseDelete (m : List (String × Nat)) (k : String) : List (String × Nat) :=
  m.filter (fun p => decide (p.1 ≠ k))

/-- `SSERegister` stores the response stream under the request's remote
address: `sse_connections.set(remoteAddress, res)`. -/
def SSERegister (m : List (String × Nat)) (remoteAddress : String) (conn : Nat) :
    List (String × Nat) :=
  sseSet m remoteAddress conn

/-- The `req.on("close", ...)` handler: `sse_connections.delete(remoteAddress)`. -/
def SSEClose (m : List (String × Nat)) (remoteAddress : String) : List (String × Nat) :=
  sseDelete m remoteAddress

/-- The message written to every registered client by `SSESendReload`. -/
def reloadMsg : String := "data: reload\n\n"

/-- `SSESendReload` iterates the registry and writes `reloadMsg` to each
stored connection; the result lists the (connection, message) writes in
registry order. -/
def SSESendReload (m : List (String × Nat)) : List (Nat × String) :=
  m.map (fun p => (p.2, reloadMsg))

/-! ### JavaScript runtime values

The parsed configuration stores raw JS values: `null`, `undefined`,
booleans, numbers (with `NaN` modelled as `none`), and strings. -/

inductive JSValue where
  | vNull
  | vUndefined
  | vBool (b : Bool)
  | vNum (q : Option ℚ)
  | vStr (s : String)
deriving DecidableEq, Repr

/-- JS truthiness: `null`, `undefined`, `false`, `NaN`, `0` and `""` are
falsy, everything else stored here is truthy. -/
def truthy : JSValue → Bool
  | .vNull => false
  | .vUndefined => false
  | .vBool b => b
  | .vNum none => false
  | .vNum (some q) => decide (q ≠ 0)
  | .vStr s => decide (s ≠ "")

/-- A single quote character, used when assembling error messages. -/
def sq : String := String.mk [Char.ofNat 39]

/-- Character-level model of `String.prototype.toLowerCase` (exact on the
ASCII arguments exercised by the CLI; `Char.toLower` lowercases A–Z). -/
def jsToLower (s : String) : String := String.mk (s.data.map Char.toLower)

/-- Does the character list start with the given pattern? -/
def startsWithChars : List Char → List Char → Bool
  | _, [] => true
  | [], _ :: _ => false
  | c :: s, d :: pat => c == d && startsWithChars s pat

/-- Model of `String.prototype.startsWith`. -/
def jsStartsWith (s pat : String) : Bool := startsWithChars s.data pat.data

/-- Is `pat` a contiguous subsequence of `l`? (Used to model unanchored
regex membership questions about error messages.) -/
def containsSeq (pat : List Char) : List Char → Bool
  | [] => startsWithChars [] pat
  | c :: rest => startsWithChars (c :: rest) pat || containsSeq pat rest

/-- Model of `digit-string → value` accumulation for decimal literals. -/
def digitsVal (l : List Char) : Nat := l.foldl (fun a c => a * 10 + (c.toNat - 48)) 0

/-- Value of an unsigned decimal literal (`123`, `12.5`, `.5`, `5.`),
`none` (NaN) for anything else. -/
def parseUnsignedDec (l : List Char) : Option ℚ :=
  let d := l.takeWhile Char.isDigit
  let rest := l.dropWhile Char.isDigit
  match rest with
  | [] => if d = [] then none else some (digitsVal d)
  | '.' :: frac =>
    if frac.all Char.isDigit ∧ (d ≠ [] ∨ frac ≠ []) then
      some ((digitsVal d : ℚ) + (digitsVal frac : ℚ) / ((10 : ℚ) ^ frac.length))
    else none
  | _ => none

/-- Model of the JS `Number(string)` conversion, restricted to
optional-sign decimal literals; every other string maps to NaN (`none`).
The empty string converts to `0`, as in JS.  (Hexadecimal, exponent and
`Infinity` forms, and whitespace trimming, are outside the inputs the
specification exercises and are mapped to NaN.) -/
def jsNumberOfString (s : String) : Option ℚ :=
  match s.data with
  | [] => some 0
  | '-' :: r => (parseUnsignedDec r).map (fun q => -q)
  | '+' :: r => parseUnsignedDec r
  | l => parseUnsignedDec l

/-- `Number(x)` where `x` is a possibly-missing argument token;
`Number(undefined)` is NaN. -/
def jsNumber : Option String → Option ℚ
  | none => none
  | some s => jsNumberOfString s

/-- Model of `Number.isInteger`, the `port` validator. -/
def jsIsInteger : JSValue → Bool
  | .vNum (some q) => decide (q.den = 1)
  | _ => false

/-! ### CLI parameter table (serve.mjs, `params_definition`) -/

inductive ParamKey where
  | port
  | verbose
  | watch
  | dirpath
deriving DecidableEq, Repr

inductive ParamType where
  | string
  | number
  | boolean
deriving DecidableEq, Repr

/-- One entry of `params_definition`: alias spellings or a positional
index, the value kind, the default, and whether a `validate` predicate is
declared (only `port` declares one: `Number.isInteger`). -/
structure ParamDef where
  aliases : Option (List String)
  position : Option Nat
  type : ParamType
  default_value : JSValue
  has_validate : Bool
deriving Repr

/-- The `params_definition` table of serve.mjs. -/
def params_definition : ParamKey → ParamDef
  | .port => ⟨some ["port", "p"], none, .number, .vNum (some 8080), true⟩
  | .verbose => ⟨some ["verbose", "v"], none, .boolean, .vUndefined, false⟩
  | .watch => ⟨some ["watch", "w"], none, .boolean, .vUndefined, false⟩
  | .dirpath => ⟨none, some 0, .string, .vStr ".", false⟩

/-- The validator attached to a definition (`port`: `Number.isInteger`). -/
def validateParam : ParamKey → JSValue → Bool
  | .port, v => jsIsInteger v
  | _, _ => true

/-- Key names as they appear in error messages. -/
def keyName : ParamKey → String
  | .port => "port"
  | .verbose => "verbose"
  | .watch => "watch"
  | .dirpath => "dirpath"

/-- Declaration (= iteration) order of the table. -/
def defKeys : List ParamKey := [.port, .verbose, .watch, .dirpath]

/-- The parsed configuration object: one field per table key, holding the
raw JS value (defaults: `port: 8080`, `verbose: undefined`,
`watch: undefined`, `dirpath: "."`). -/
structure Params where
  port : JSValue
  verbose : JSValue
  watch : JSValue
  dirpath : JSValue
deriving DecidableEq, Repr

def defaultParams : Params :=
  ⟨(params_definition .port).default_value, (params_definition .verbose).default_value,
   (params_definition .watch).default_value, (params_definition .dirpath).default_value⟩

/-- `res[def_key] = value`. -/
def setParam : Params → ParamKey → JSValue → Params
  | p, .port, v => ⟨v, p.verbose, p.watch, p.dirpath⟩
  | p, .verbose, v => ⟨p.port, v, p.watch, p.dirpath⟩
  | p, .watch, v => ⟨p.port, p.verbose, v, p.dirpath⟩
  | p, .dirpath, v => ⟨p.port, p.verbose, p.watch, v⟩

/-- Model of `parseArgValue`: converts a raw token (possibly missing, when
`argv[++i]` ran off the end) according to the declared kind.  The boolean
branch is the unanchored case-insensitive `/tr?u?e?|ye?s?|1/` test, which
accepts exactly the strings containing `t`, `y` or `1` (each alternative
needs only its first letter). -/
def parseArgValue (t : ParamType) (arg : Option String) : JSValue :=
  match t with
  | .string =>
    match arg with
    | some a => .vStr a
    | none => .vUndefined
  | .number => .vNum (jsNumber arg)
  | .boolean =>
    .vBool ((jsToLower (match arg with | some a => a | none => "undefined")).data.any
      (fun c => c == 't' || c == 'y' || c == '1'))

/-- Does the pattern `--?he?l?p?` match at the head of the list?  The
trailing `e? l? p?` parts are optional, so a match needs `-h` after an
optional extra `-`. -/
def helpMatchAt : List Char → Bool
  | '-' :: '-' :: 'h' :: _ => true
  | '-' :: 'h' :: _ => true
  | _ => false

def helpTestChars : List Char → Bool
  | [] => false
  | c :: rest => helpMatchAt (c :: rest) || helpTestChars rest

/-- Model of the help-regex test (pattern `--?he?l?p?`, applied with
`.test(arg)`): unanchored, so the pattern may match anywhere in the token. -/
def helpRegexTest (s : String) : Bool := helpTestChars s.data

/-- Exit outcomes of `printHelp`: usage text on stderr, then
`process.exit(0)` on a plain help request or `process.exit(1)` after an
error message. -/
inductive ParseExit where
  | helpOk
  | helpErr (msg : String)
deriving DecidableEq, Repr

/-- The exit code `printHelp` passes to `process.exit`. -/
def exitCode : ParseExit → Nat
  | .helpOk => 0
  | .helpErr _ => 1

def errUnknown (tok : String) : String :=
  "Unknown argument: " ++ sq ++ tok ++ sq

def errInvalid (key : ParamKey) (tok : String) : String :=
  "Invalid value for argument " ++ sq ++ keyName key ++ sq ++ ": " ++ sq ++ tok ++ sq

/-- The token `argv[i]` currently designates for error messages: the
consumed following token if `++i` happened (JS renders a missing one as
`undefined`), otherwise the original current token. -/
def displayTok (origArg : String) (next : Option String) (consumed : Bool) : String :=
  if consumed then (match next with | some s => s | none => "undefined") else origArg

/-- The match attempt of one definition against the current token: yields
the updated candidate `value`, whether `argv[++i]` consumed the following
token, and the running positional counter. -/
def tryDef (arg : String) (next : Option String) (d : ParamDef)
    (value : JSValue) (consumed : Bool) (cpos : Nat) : JSValue × Bool × Nat :=
  if jsStartsWith arg "-" then
    match d.aliases with
    | some al =>
      if arg.data.drop 1 ∈ (al.map String.data) then
        match d.type with
        | .boolean => (.vBool true, consumed, cpos)
        | _ => (parseArgValue d.type next, true, cpos)
      else (value, consumed, cpos)
    | none => (value, consumed, cpos)
  else
    match d.position with
    | some pos =>
      if pos = cpos then (parseArgValue d.type (some arg), consumed, cpos + 1)
      else (value, consumed, cpos)
    | none => (value, consumed, cpos)

/-- The inner loop of `parseArgs` over the definition table.  For each
definition: a `-`-prefixed token is matched against the alias set (boolean
kinds are satisfied by presence, other kinds consume the next token); a
bare token is matched against the positional index.  A truthy value is
then validated (exiting via `printHelp` on failure) and assigned, breaking
the loop; a falsy value lets the scan continue. -/
def innerLoop (arg : String) (origArg : String) (next : Option String) :
    Params → JSValue → Bool → Nat → List ParamKey →
      Except ParseExit (Params × JSValue × Bool × Nat)
  | res, value, consumed, cpos, [] => .ok (res, value, consumed, cpos)
  | res, value, consumed, cpos, k :: ks =>
    match tryDef arg next (params_definition k) value consumed cpos with
    | (value', consumed', cpos') =>
      if truthy value' then
        if (params_definition k).has_validate ∧ validateParam k value' = false then
          .error (.helpErr (errInvalid k (displayTok origArg next consumed')))
        else .ok (setParam res k value', value', consumed', cpos')
      else innerLoop arg origArg next res value' consumed' cpos' ks

/-- The outer loop of `parseArgs`: lowercase the token, exit on the help
pattern, run the definition scan, then either continue (skipping a
consumed token) or exit with an unknown-argument error when no definition
produced a truthy value. -/
def parseLoop : Params → Nat → List String → Except ParseExit Params
  | res, _, [] => .ok res
  | res, cpos, a :: rest =>
    let arg := jsToLower a
    if helpRegexTest arg then .error .helpOk
    else
      match innerLoop arg a rest.head? res .vNull false cpos defKeys with
      | .error e => .error e
      | .ok (res', value, consumed, cpos') =>
        if truthy value then
          if consumed then
            match rest with
            | [] => .ok res'
            | _ :: rest2 => parseLoop res' cpos' rest2
          else parseLoop res' cpos' rest
        else .error (.helpErr (errUnknown (displayTok a rest.head? consumed)))

/-- Model of `parseArgs(argv)`. -/
def parseArgs (argv : List String) : Except ParseExit Params :=
  parseLoop defaultParams 0 argv

/-! ### POSIX path handling (serve.mjs, `sanitisePath` / `getFilepath` /
`handleStatic`)

`path.normalize` and `path.join` from `node:path` on a POSIX platform,
modelled at the character-list level.  `normalize` splits on `/`, drops
empty and `.` segments, resolves `..` against preceding segments (dropping
`..` at the root of an absolute path, keeping it only for relative paths),
rejoins, and restores the leading and trailing separators. -/

/-- Split a character list on `/` (like the segment scan inside Node's
`normalizeString`); the separators themselves are dropped, empty segments
are kept. -/
def splitSlash : List Char → List (List Char)
  | [] => [[]]
  | c :: rest =>
    if c = '/' then [] :: splitSlash rest
    else (c :: (splitSlash rest).headI) :: (splitSlash rest).tail

/-- Rejoin segments with `/` separators. -/
def joinSegs : List (List Char) → List Char
  | [] => []
  | [s] => s
  | s :: t :: rest => s ++ '/' :: joinSegs (t :: rest)

/-- A normalized path segment that denotes a real directory-entry name:
nonempty, not `.` or `..`, and containing no separator. -/
def goodSeg (s : List Char) : Prop :=
  s ≠ [] ∧ s ≠ ['.'] ∧ s ≠ ['.', '.'] ∧ '/' ∉ s

instance (s : List Char) : Decidable (goodSeg s) := by
  unfold goodSeg; infer_instance

/-- One step of Node's `normalizeString` segment resolution, on a stack of
already-resolved segments (most recent first).  `allowAboveRoot` is true
exactly for relative paths. -/
def normStep (allowAboveRoot : Bool) (st : List (List Char)) (seg : List Char) :
    List (List Char) :=
  if seg = [] ∨ seg = ['.'] then st
  else if seg = ['.', '.'] then
    match st with
    | [] => if allowAboveRoot then [seg] else []
    | top :: rest => if top = ['.', '.'] then (if allowAboveRoot then seg :: top :: rest else top :: rest) else rest
  else seg :: st

/-- Node's `normalizeString`: resolve all segments, in order. -/
def normSegs (allowAboveRoot : Bool) (segs : List (List Char)) : List (List Char) :=
  (segs.foldl (normStep allowAboveRoot) []).reverse

/-- Model of `path.posix.normalize`. -/
def normalizeChars (p : List Char) : List Char :=
  match p with
  | [] => ['.']
  | c :: rest =>
    let isAbs : Bool := c == '/'
    let trail : Bool := (c :: rest).getLast? == some '/'
    let body := joinSegs (normSegs (!isAbs) (splitSlash (c :: rest)))
    if body = [] then (if isAbs then ['/'] else if trail then ['.', '/'] else ['.'])
    else (if isAbs then ['/'] else []) ++ body ++ (if trail then ['/'] else [])

/-- The replacement of the anchored regex `(\.\.[/\])+` by the empty
string: greedily strip leading `../` or `..\` groups. -/
def stripDotDotGroups : List Char → List Char
  | a :: b :: c :: rest =>
    if a = '.' ∧ b = '.' ∧ (c = '/' ∨ c = '\\') then stripDotDotGroups rest
    else a :: b :: c :: rest
  | l => l

/-- Model of `sanitisePath`: `path.normalize(pathname)` followed by the
leading parent-directory strip. -/
def sanitisePathChars (p : List Char) : List Char :=
  stripDotDotGroups (normalizeChars p)

def sanitisePath (pathname : String) : String :=
  String.mk (sanitisePathChars pathname.data)

/-- Model of `getFilepath(pathname, prefix)`: a truthy prefix must head the
pathname and is sliced off (otherwise resolution fails with `null`); the
remainder is sanitised.  `handleStatic` calls it with `prefix` undefined. -/
def getFilepath (pathname : String) (pre : Option String) : Option String :=
  match pre with
  | some pfx =>
    if pfx = "" then some (sanitisePath pathname)
    else if jsStartsWith pathname pfx then
      some (sanitisePath (String.mk (pathname.data.drop pfx.data.length)))
    else none
  | none => some (sanitisePath pathname)

/-- Model of `path.posix.join` on two parts: empty parts are skipped, the
rest are joined with `/` and normalized; if nothing remains the result is
`.`. -/
def joinChars (a b : List Char) : List Char :=
  if a = [] then (if b = [] then ['.'] else normalizeChars b)
  else if b = [] then normalizeChars a
  else normalizeChars (a ++ '/' :: b)

/-- The file path `handleStatic` accesses before any directory re-resolution:
`path.join(opts.directory ?? "", getFilepath(opts.pathname, opts.prefix))`
(with the route passing `prefix` undefined). -/
def resolveStatic (dir pathname : String) : Option String :=
  (getFilepath pathname none).map (fun f => String.mk (joinChars dir.data f.data))

/-- A well-formed serving root for containment statements: an absolute
path with no trailing separator whose segments are all real names
(nonempty, not `.` or `..`).  `/srv/site` is such a root. -/
def goodRoot (root : String) : Bool :=
  startsWithChars root.data ['/'] &&
    decide (∀ x ∈ splitSlash root.data.tail, goodSeg x)

/-! ### API namespace handler (serve.mjs, `APIPathRegex` / `handleAPI` /
`route`) -/

/-- Characters the JS `.` metacharacter (no `s` flag) can match. -/
def jsDotOk (c : Char) : Bool :=
  !(c == '\n' || c == '\r' || c == '\u2028' || c == '\u2029')

/-- Model of `APIPathRegex.exec(pathname)` for the pattern
`^/api/(\d+)(.*)$`: a literal `/api/` head, a maximal nonempty
run of digits (the captured version), and a rest that `.*` must cover, so
it may not contain line terminators.  Returns the two capture groups. -/
def apiRegexExec (l : List Char) : Option (List Char × List Char) :=
  if l.take 5 = "/api/".data then
    let t := l.drop 5
    let d := t.takeWhile Char.isDigit
    let r := t.dropWhile Char.isDigit
    if d ≠ [] ∧ r.all jsDotOk then some (d, r) else none
  else none

/-- An HTTP response as far as the claims observe it. -/
structure HttpResponse where
  status : Nat
  body : String
deriving DecidableEq, Repr

/-- Model of the handler returned by `handleAPI({pathname})`: with no regex
match, or a missing version, or a rest not starting with `/`, it answers
404 "Invalid API endpoint"; otherwise the function body ends without
writing any response (`none`). -/
def handleAPI (pathname : String) : Option HttpResponse :=
  match apiRegexExec pathname.data with
  | none => some ⟨404, "Invalid API endpoint"⟩
  | some (_, r) =>
    if r.head? = some '/' then none
    else some ⟨404, "Invalid API endpoint"⟩

/-- The dispatch outcome of `route` for a request with URL pathname `p`. -/
inductive RouteResult where
  | sse
  | api (resp : Option HttpResponse)
  | staticFile (filepath : Option String)
  | unmatched (resp : HttpResponse)
deriving DecidableEq, Repr

/-- Model of `route`'s dispatch on the pathname (the static branch is
modelled up to the resolved on-disk path; actual file I/O is outside the
embedding). -/
def routePathname (dir p : String) : RouteResult :=
  if p = "/reload" then .sse
  else if jsStartsWith p "/api" then .api (handleAPI p)
  else if jsStartsWith p "/" then .staticFile (resolveStatic dir p)
  else .unmatched ⟨404, "Unmatched pathname"⟩

/-! ## Claim theorems -/

/-- Claim C3: the throttled change callback follows leading-edge semantics
with a 100 ms window: the first event of an idle period fires immediately
and opens a cooldown; events inside the cooldown produce no invocation;
an event after the cooldown fires again.  Five events within 10 ms yield
exactly one invocation and a sixth event 150 ms later yields a second. -/
theorem c3_throttle_leading_edge (t0 t1 t2 t3 t4 t5 : Nat)
    (h01 : t0 ≤ t1) (h12 : t1 ≤ t2) (h23 : t2 ≤ t3) (h34 : t3 ≤ t4)
    (hburst : t4 ≤ t0 + 10) (hlater : t5 = t4 + 150) :
    throttleTrace watchThrottleMs none [t0, t1, t2, t3, t4, t5] =
      [true, false, false, false, false, true] := by
  have h1 : t1 < t0 + 100 := by omega
  have h2 : t2 < t0 + 100 := by omega
  have h3 : t3 < t0 + 100 := by omega
  have h4 : t4 < t0 + 100 := by omega
  have h5 : ¬ t5 < t0 + 100 := by omega
  simp [throttleTrace, throttleStep, watchThrottleMs, h1, h2, h3, h4, h5]

/-- Witness for C3 at the concrete burst 0, 2, 4, 6, 8 and the late event
at 158 = 8 + 150. -/
theorem c3_throttle_leading_edge_witness :
    (0 : Nat) ≤ 2 ∧ (2 : Nat) ≤ 4 ∧ (4 : Nat) ≤ 6 ∧ (6 : Nat) ≤ 8 ∧
    (8 : Nat) ≤ 0 + 10 ∧ (158 : Nat) = 8 + 150 ∧
    throttleTrace watchThrottleMs none [0, 2, 4, 6, 8, 158] =
      [true, false, false, false, false, true] :=
  ⟨by decide, by decide, by decide, by decide, by decide, by decide,
    c3_throttle_leading_edge 0 2 4 6 8 158 (by decide) (by decide) (by decide)
      (by decide) (by decide) (by decide)⟩

/-- Claim C4: with two clients registered under distinct remote addresses,
a broadcast writes the reload message to both, in registry order; if the
first disconnects (its close handler removes it) before the broadcast,
only the remaining client receives the message — the broadcast is a total
function of the registry, so no error arises for the departed client. -/
theorem c4_broadcast_two_clients (a b : String) (x y : Nat) (hab : a ≠ b) :
    SSESendReload (SSERegister (SSERegister [] a x) b y) =
      [(x, reloadMsg), (y, reloadMsg)] ∧
    SSESendReload (SSEClose (SSERegister (SSERegister [] a x) b y) a) =
      [(y, reloadMsg)] := by
  refine ⟨?_, ?_⟩ <;>
    simp [SSERegister, SSEClose, sseSet, sseDelete, SSESendReload, hab, Ne.symm hab]

/-- Witness for C4 with addresses "1.1.1.1", "2.2.2.2" and connections 1, 2. -/
theorem c4_broadcast_two_clients_witness :
    ("1.1.1.1" : String) ≠ "2.2.2.2" ∧
    (SSESendReload (SSERegister (SSERegister [] "1.1.1.1" 1) "2.2.2.2" 2) =
      [(1, reloadMsg), (2, reloadMsg)] ∧
    SSESendReload (SSEClose (SSERegister (SSERegister [] "1.1.1.1" 1) "2.2.2.2" 2) "1.1.1.1") =
      [(2, reloadMsg)]) :=
  ⟨by decide, c4_broadcast_two_clients "1.1.1.1" "2.2.2.2" 1 2 (by decide)⟩

/-- Claim C5 counterexample: parsing `-p 3000 www -watch` does not produce
the claimed configuration with `verbose: false` — the verbose field is left
at its default `undefined`. -/
theorem c5_counterexample :
    parseArgs ["-p", "3000", "www", "-watch"] ≠
      Except.ok ⟨.vNum (some 3000), .vBool false, .vBool true, .vStr "www"⟩ := by
  decide

/-- Claim C5 (amended): parsing `-p 3000 www -watch` yields the
configuration port: 3000, dirpath: "www", watch: true, and verbose left at
its default `undefined` (an unset, falsy flag) rather than `false`. -/
theorem c5_parse_example :
    parseArgs ["-p", "3000", "www", "-watch"] =
      Except.ok ⟨.vNum (some 3000), .vUndefined, .vBool true, .vStr "www"⟩ := by
  decide

/-- Claim C6 counterexample: `-p notanumber` exits through the
unknown-argument path, not the validator: `Number("notanumber")` is NaN,
which is falsy, so the validator never runs and the error message is
`Unknown argument: 'notanumber'` — it does not mention `port`. -/
theorem c6_counterexample :
    parseArgs ["-p", "notanumber"] =
      Except.error (.helpErr (errUnknown "notanumber")) ∧
    containsSeq "port".data (errUnknown "notanumber").data = false := by
  exact ⟨by decide, by decide⟩

/-- Claim C6 (amended): an argument list containing `-p notanumber` is
rejected with a non-zero exit and an error message on the error stream,
but via the unknown-argument path naming the raw token (the NaN value is
falsy, so the integer validator is skipped and `port` is not mentioned). -/
theorem c6_nan_port_exits_nonzero :
    parseArgs ["-p", "notanumber"] =
      Except.error (.helpErr (errUnknown "notanumber")) ∧
    exitCode (.helpErr (errUnknown "notanumber")) = 1 := by
  exact ⟨by decide, by decide⟩

/-- Claim C7 counterexample: an argument list containing `-help` does not
always exit 0 — in `-p x -help` the invalid port value exits 1 through the
unknown-argument path before `-help` is reached. -/
theorem c7_counterexample :
    parseArgs ["-p", "x", "-help"] = Except.error (.helpErr (errUnknown "x")) ∧
    exitCode (.helpErr (errUnknown "x")) ≠ 0 := by
  exact ⟨by decide, by decide⟩

/-- Claim C7 (amended): whenever the scan reaches a literal `-help` token —
that is, no earlier token has already exited the process or consumed the
token as its value — the parser prints usage and exits 0 immediately,
whatever arguments follow and whatever state has been accumulated. -/
theorem c7_help_token_exits_zero (res : Params) (cpos : Nat) (post : List String) :
    parseLoop res cpos ("-help" :: post) = .error .helpOk ∧ exitCode .helpOk = 0 := by
  have h : helpRegexTest (jsToLower "-help") = true := by decide
  exact ⟨by simp [parseLoop, h], rfl⟩

/-- Claim C9: any token whose lowercased form contains a match of the
unanchored pattern `--?he?l?p?` anywhere triggers the help-and-exit-0
path, regardless of parser state and of the remaining arguments. -/
theorem c9_embedded_help_pattern (tok : String) (res : Params) (cpos : Nat)
    (post : List String) (h : helpRegexTest (jsToLower tok) = true) :
    parseLoop res cpos (tok :: post) = .error .helpOk := by
  simp [parseLoop, h]

/-- Witness for C9 at the positional value `my-house`, which contains `-h`
but is not a help flag. -/
theorem c9_embedded_help_pattern_witness :
    helpRegexTest (jsToLower "my-house") = true ∧
    parseLoop defaultParams 0 ["my-house"] = .error .helpOk :=
  ⟨by decide, c9_embedded_help_pattern "my-house" defaultParams 0 [] (by decide)⟩

/-- Claim C10: a positional token that is not a flag, not empty and not
matching the help pattern is stored lowercased: the scan assigns
`dirpath := jsToLower token` and advances the positional counter. -/
theorem c10_positional_lowercased (s : String) (res : Params) (rest : List String)
    (h1 : helpRegexTest (jsToLower s) = false)
    (h2 : jsStartsWith (jsToLower s) "-" = false)
    (h3 : jsToLower s ≠ "") :
    parseLoop res 0 (s :: rest) =
      parseLoop (setParam res .dirpath (.vStr (jsToLower s))) 1 rest := by
  simp [parseLoop, h1, innerLoop, tryDef, defKeys, params_definition, h2,
    parseArgValue, truthy, h3, setParam]

/-- Witness for C10: dirpath `WWW` parses to the configuration value `www`. -/
theorem c10_positional_lowercased_witness :
    helpRegexTest (jsToLower "WWW") = false ∧
    jsStartsWith (jsToLower "WWW") "-" = false ∧ jsToLower "WWW" ≠ "" ∧
    parseArgs ["WWW"] =
      Except.ok ⟨.vNum (some 8080), .vUndefined, .vUndefined, .vStr "www"⟩ := by
  refine ⟨by decide, by decide, by decide, ?_⟩
  have h := c10_positional_lowercased "WWW" defaultParams [] (by decide) (by decide)
    (by decide)
  calc parseArgs ["WWW"] = parseLoop defaultParams 0 ["WWW"] := rfl
    _ = parseLoop (setParam defaultParams .dirpath (.vStr (jsToLower "WWW"))) 1 [] := h
    _ = Except.ok ⟨.vNum (some 8080), .vUndefined, .vUndefined, .vStr "www"⟩ := by decide

/-- Characterisation of `startsWithChars` as list-prefix decomposition. -/
theorem startsWithChars_iff (s pat : List Char) :
    startsWithChars s pat = true ↔ ∃ r, s = pat ++ r := by
  induction pat generalizing s with
  | nil => simp [startsWithChars]
  | cons d pat ih =>
    cases s with
    | nil => simp [startsWithChars]
    | cons c s =>
      simp only [startsWithChars, Bool.and_eq_true, beq_iff_eq, ih, List.cons_append,
        List.cons.injEq]
      constructor
      · rintro ⟨rfl, r, rfl⟩; exact ⟨r, rfl, rfl⟩
      · rintro ⟨r, rfl, rfl⟩; exact ⟨rfl, r, rfl⟩

/-- Claim C2 counterexample: the GET path `/api/1/foo` is routed to the
API handler, which writes no response at all (`none`) instead of a
"not found" answer — the destructured rest `/foo` starts with `/`, so the
handler's only `return notFound(...)` is skipped and the body ends. -/
theorem c2_counterexample :
    routePathname "." "/api/1/foo" = RouteResult.api none := by
  decide

/-- Claim C2 (amended): every GET path under `/api` is routed to the API
handler, which answers 404 "Invalid API endpoint" — except the paths of
the shape `/api/<digits><rest>` with `<rest>` starting with a slash, which
the version regex accepts and for which the handler writes no response at
all. -/
theorem c2_api_responses (dir p : String) (h : jsStartsWith p "/api" = true) :
    routePathname dir p = RouteResult.api (some ⟨404, "Invalid API endpoint"⟩) ∨
    (routePathname dir p = RouteResult.api none ∧
      ∃ d r, p.data = "/api/".data ++ d ++ r ∧ d ≠ [] ∧ d.all Char.isDigit = true ∧
        r.head? = some '/') := by
  obtain ⟨rest0, hp⟩ := (startsWithChars_iff p.data "/api".data).mp h
  have hre : p ≠ "/reload" := by
    intro hcon
    rw [hcon] at h
    exact absurd h (by decide)
  have hroute : routePathname dir p = RouteResult.api (handleAPI p) := by
    unfold routePathname
    rw [if_neg hre, if_pos h]
  rw [hroute]
  cases rest0 with
  | nil =>
    left
    have : p.data = "/api".data := by simpa using hp
    unfold handleAPI apiRegexExec
    rw [this]
    decide
  | cons c rest1 =>
    by_cases hc : c = '/'
    · subst hc
      have hp5 : p.data = "/api/".data ++ rest1 := by simpa using hp
      have htake : p.data.take 5 = "/api/".data := by
        rw [hp5, show (5 : Nat) = ("/api/".data).length from rfl, List.take_left]
      have hdrop : p.data.drop 5 = rest1 := by
        rw [hp5, show (5 : Nat) = ("/api/".data).length from rfl, List.drop_left]
      by_cases hguard : rest1.takeWhile Char.isDigit ≠ [] ∧
          (rest1.dropWhile Char.isDigit).all jsDotOk
      · have hexec : apiRegexExec p.data =
            some (rest1.takeWhile Char.isDigit, rest1.dropWhile Char.isDigit) := by
          unfold apiRegexExec
          rw [if_pos htake, hdrop, if_pos hguard]
        by_cases hhead : (rest1.dropWhile Char.isDigit).head? = some '/'
        · right
          constructor
          · unfold handleAPI
            rw [hexec]
            simp [hhead]
          · refine ⟨rest1.takeWhile Char.isDigit, rest1.dropWhile Char.isDigit, ?_, hguard.1,
              ?_, hhead⟩
            · rw [hp5, List.append_assoc, List.takeWhile_append_dropWhile]
            · rw [List.all_eq_true]
              intro c hc
              exact List.mem_takeWhile_imp hc
        · left
          unfold handleAPI
          rw [hexec]
          simp [hhead]
      · left
        have hexec : apiRegexExec p.data = none := by
          unfold apiRegexExec
          rw [if_pos htake, hdrop, if_neg hguard]
        unfold handleAPI
        rw [hexec]
    · left
      have hp5 : p.data = '/' :: 'a' :: 'p' :: 'i' :: c :: rest1 := by simpa using hp
      have htake : p.data.take 5 ≠ "/api/".data := by
        rw [hp5]
        simp [List.take, hc]
      have hexec : apiRegexExec p.data = none := by
        unfold apiRegexExec
        rw [if_neg htake]
      unfold handleAPI
      rw [hexec]

/-- Witness for C2 (amended) at the path `/api/1/x`, which the version
regex accepts, so the handler leaves the request unanswered. -/
theorem c2_api_responses_witness :
    jsStartsWith "/api/1/x" "/api" = true ∧
    (routePathname "." "/api/1/x" = RouteResult.api (some ⟨404, "Invalid API endpoint"⟩) ∨
    (routePathname "." "/api/1/x" = RouteResult.api none ∧
      ∃ d r, ("/api/1/x" : String).data = "/api/".data ++ d ++ r ∧ d ≠ [] ∧
        d.all Char.isDigit = true ∧ r.head? = some '/')) :=
  ⟨by decide, c2_api_responses "." "/api/1/x" (by decide)⟩

/-- Unfolding of `sseSet` when the key is already present. -/
theorem sseSet_of_any (m : List (String × Nat)) (k : String) (v : Nat)
    (h : m.any (fun p => decide (p.1 = k)) = true) :
    sseSet m k v = m.map (fun p => if p.1 = k then (k, v) else p) := by
  unfold sseSet
  rw [if_pos h]

/-- Unfolding of `sseSet` when the key is absent. -/
theorem sseSet_of_not_any (m : List (String × Nat)) (k : String) (v : Nat)
    (h : ¬ m.any (fun p => decide (p.1 = k)) = true) :
    sseSet m k v = m ++ [(k, v)] := by
  unfold sseSet
  rw [if_neg h]

/-- Keys are unchanged when `sseSet` overwrites an existing key. -/
theorem sseSet_keys_of_mem (m : List (String × Nat)) (k : String) (v : Nat)
    (h : m.any (fun p => decide (p.1 = k)) = true) :
    (sseSet m k v).map Prod.fst = m.map Prod.fst := by
  rw [sseSet_of_any m k v h, List.map_map]
  have hf : (Prod.fst ∘ fun p : String × Nat => if p.1 = k then (k, v) else p) = Prod.fst := by
    funext p
    by_cases hp : p.1 = k <;> simp [hp]
  rw [hf]

/-- Registering any client keeps the registry keys duplicate-free. -/
theorem sseSet_keys_nodup (m : List (String × Nat)) (k : String) (v : Nat)
    (hm : (m.map Prod.fst).Nodup) : ((sseSet m k v).map Prod.fst).Nodup := by
  by_cases h : m.any (fun p => decide (p.1 = k)) = true
  · rw [sseSet_keys_of_mem m k v h]
    exact hm
  · rw [sseSet_of_not_any m k v h, List.map_append]
    have hk : k ∉ m.map Prod.fst := by
      intro hmem
      obtain ⟨p, hp, hpk⟩ := List.mem_map.mp hmem
      exact h (List.any_eq_true.mpr ⟨p, hp, by simp [hpk]⟩)
    simp [List.nodup_append, hm, hk]

/-- Removing a client keeps the registry keys duplicate-free. -/
theorem sseDelete_keys_nodup (m : List (String × Nat)) (k : String)
    (hm : (m.map Prod.fst).Nodup) : ((sseDelete m k).map Prod.fst).Nodup := by
  exact hm.sublist ((List.filter_sublist m).map Prod.fst)

/-- The key just set is present afterwards. -/
theorem sseSet_mem_key (m : List (String × Nat)) (k : String) (v : Nat) :
    ∃ q ∈ sseSet m k v, q.1 = k := by
  by_cases h : m.any (fun p => decide (p.1 = k)) = true
  · rw [sseSet_of_any m k v h]
    obtain ⟨p, hp, hpk⟩ := List.any_eq_true.mp h
    refine ⟨(k, v), List.mem_map.mpr ⟨p, hp, ?_⟩, rfl⟩
    rw [if_pos (of_decide_eq_true hpk)]
  · rw [sseSet_of_not_any m k v h]
    exact ⟨(k, v), by simp, rfl⟩

/-- Claim C8: the registry keeps at most one entry per remote address:
register and unregister preserve key-uniqueness, and registering a second
connection `y` under an address already holding `x` makes broadcasts reach
`y` but no longer `x` (for an `x` stored nowhere else). -/
theorem c8_registry_replaces (m : List (String × Nat)) (a : String) (x y : Nat)
    (hm : (m.map Prod.fst).Nodup) (hx : x ∉ m.map Prod.snd) (hxy : x ≠ y) :
    ((SSERegister m a x).map Prod.fst).Nodup ∧
    (∀ k, ((SSEClose (SSERegister m a x) k).map Prod.fst).Nodup) ∧
    (x, reloadMsg) ∉ SSESendReload (SSERegister (SSERegister m a x) a y) ∧
    (y, reloadMsg) ∈ SSESendReload (SSERegister (SSERegister m a x) a y) := by
  have hany : (sseSet m a x).any (fun p => decide (p.1 = a)) = true := by
    obtain ⟨q, hq, hqk⟩ := sseSet_mem_key m a x
    exact List.any_eq_true.mpr ⟨q, hq, by simp [hqk]⟩
  have hm2 : SSERegister (SSERegister m a x) a y =
      (sseSet m a x).map (fun p => if p.1 = a then (a, y) else p) :=
    sseSet_of_any (sseSet m a x) a y hany
  refine ⟨sseSet_keys_nodup m a x hm, fun k => sseDelete_keys_nodup _ k
    (sseSet_keys_nodup m a x hm), ?_, ?_⟩
  · intro hmem
    unfold SSESendReload at hmem
    obtain ⟨p, hp, hpeq⟩ := List.mem_map.mp hmem
    have hpx : p.2 = x := congrArg Prod.fst hpeq
    rw [hm2] at hp
    obtain ⟨q, hq, hqeq⟩ := List.mem_map.mp hp
    by_cases hqa : q.1 = a
    · rw [if_pos hqa] at hqeq
      rw [← hqeq] at hpx
      exact hxy hpx.symm
    · rw [if_neg hqa] at hqeq
      subst hqeq
      by_cases hany1 : m.any (fun p => decide (p.1 = a)) = true
      · rw [sseSet_of_any m a x hany1] at hq
        obtain ⟨w, hw, hweq⟩ := List.mem_map.mp hq
        by_cases hwa : w.1 = a
        · rw [if_pos hwa] at hweq
          rw [← hweq] at hqa
          exact hqa rfl
        · rw [if_neg hwa] at hweq
          subst hweq
          exact hx (List.mem_map.mpr ⟨w, hw, hpx⟩)
      · rw [sseSet_of_not_any m a x hany1] at hq
        rcases List.mem_append.mp hq with hq | hq
        · exact hx (List.mem_map.mpr ⟨q, hq, hpx⟩)
        · have : q = (a, x) := by simpa using hq
          rw [this] at hqa
          exact hqa rfl
  · obtain ⟨q, hq, hqk⟩ := sseSet_mem_key m a x
    rw [hm2]
    unfold SSESendReload
    refine List.mem_map.mpr ⟨(a, y), List.mem_map.mpr ⟨q, hq, ?_⟩, rfl⟩
    rw [if_pos hqk]

/-- Witness for C8 on the empty registry with address "1.2.3.4" and the
connections 1 (replaced) and 2 (replacing). -/
theorem c8_registry_replaces_witness :
    (([] : List (String × Nat)).map Prod.fst).Nodup ∧
    (1 : Nat) ∉ ([] : List (String × Nat)).map Prod.snd ∧ (1 : Nat) ≠ 2 ∧
    ((SSERegister [] "1.2.3.4" 1).map Prod.fst).Nodup ∧
    ((SSEClose (SSERegister [] "1.2.3.4" 1) "1.2.3.4").map Prod.fst).Nodup ∧
    (1, reloadMsg) ∉ SSESendReload (SSERegister (SSERegister [] "1.2.3.4" 1) "1.2.3.4" 2) ∧
    (2, reloadMsg) ∈ SSESendReload (SSERegister (SSERegister [] "1.2.3.4" 1) "1.2.3.4" 2) := by
  have h := c8_registry_replaces [] "1.2.3.4" 1 2 (by decide) (by decide) (by decide)
  exact ⟨by decide, by decide, by decide, h.1, h.2.1 "1.2.3.4", h.2.2.1, h.2.2.2⟩

/-! ### Lemmas about the POSIX path model -/

theorem splitSlash_ne_nil (l : List Char) : splitSlash l ≠ [] := by
  cases l with
  | nil => simp [splitSlash]
  | cons c rest =>
    unfold splitSlash
    split <;> simp

theorem splitSlash_cons_slash (l : List Char) : splitSlash ('/' :: l) = [] :: splitSlash l := by
  simp [splitSlash]

theorem splitSlash_append (a b : List Char) :
    splitSlash (a ++ '/' :: b) = splitSlash a ++ splitSlash b := by
  induction a with
  | nil => simp [splitSlash]
  | cons c a ih =>
    by_cases hc : c = '/'
    · subst hc
      simp [splitSlash, ih]
    · obtain ⟨s, ss, hss⟩ := List.exists_cons_of_ne_nil (splitSlash_ne_nil a)
      simp [splitSlash, hc, ih, hss]

theorem splitSlash_no_slash (l : List Char) (h : '/' ∉ l) : splitSlash l = [l] := by
  induction l with
  | nil => simp [splitSlash]
  | cons c l ih =>
    simp only [List.mem_cons, not_or] at h
    have hc : c ≠ '/' := fun hcc => h.1 hcc.symm
    simp [splitSlash, hc, ih h.2]

theorem mem_splitSlash_no_slash (l : List Char) : ∀ s ∈ splitSlash l, '/' ∉ s := by
  induction l with
  | nil =>
    intro s hs
    simp [splitSlash] at hs
    simp [hs]
  | cons c l ih =>
    intro s hs
    by_cases hc : c = '/'
    · subst hc
      rw [splitSlash_cons_slash] at hs
      rcases List.mem_cons.mp hs with rfl | hs
      · simp
      · exact ih s hs
    · obtain ⟨s0, ss, hss⟩ := List.exists_cons_of_ne_nil (splitSlash_ne_nil l)
      simp only [splitSlash, if_neg hc, hss, List.headI, List.tail] at hs
      rcases List.mem_cons.mp hs with rfl | hs
      · have h0 : '/' ∉ s0 := ih s0 (by rw [hss]; exact List.mem_cons_self _ _)
        simp only [List.mem_cons, not_or]
        exact ⟨fun hcc => hc hcc.symm, h0⟩
      · exact ih s (by rw [hss]; exact List.mem_cons_of_mem _ hs)

theorem joinSegs_append (a b : List (List Char)) (hb : b ≠ []) :
    a ≠ [] → joinSegs (a ++ b) = joinSegs a ++ '/' :: joinSegs b := by
  induction a with
  | nil => intro h; exact absurd rfl h
  | cons s a ih =>
    intro _
    cases a with
    | nil =>
      obtain ⟨t, r, rfl⟩ := List.exists_cons_of_ne_nil hb
      simp [joinSegs]
    | cons s2 a2 =>
      have h2 := ih (by simp)
      simp only [List.cons_append] at h2 ⊢
      simp [joinSegs, h2, List.append_assoc]

theorem joinSegs_splitSlash (t : List Char) : joinSegs (splitSlash t) = t := by
  induction t with
  | nil => simp [splitSlash, joinSegs]
  | cons c t ih =>
    by_cases hc : c = '/'
    · subst hc
      obtain ⟨s, ss, hss⟩ := List.exists_cons_of_ne_nil (splitSlash_ne_nil t)
      rw [splitSlash_cons_slash, hss, joinSegs, ← hss, ih]
      rfl
    · obtain ⟨s, ss, hss⟩ := List.exists_cons_of_ne_nil (splitSlash_ne_nil t)
      simp only [splitSlash, if_neg hc, hss, List.headI, List.tail]
      cases ss with
      | nil =>
        have hst : s = t := by
          rw [hss] at ih
          simpa [joinSegs] using ih
        simp [joinSegs, hst]
      | cons s2 ss2 =>
        rw [hss] at ih
        simp only [joinSegs] at ih ⊢
        rw [List.cons_append, ih]

theorem splitSlash_joinSegs (segs : List (List Char)) (h1 : segs ≠ [])
    (h2 : ∀ x ∈ segs, x ≠ [] ∧ '/' ∉ x) : splitSlash (joinSegs segs) = segs := by
  induction segs with
  | nil => exact absurd rfl h1
  | cons s segs ih =>
    cases segs with
    | nil =>
      have := h2 s (List.mem_cons_self _ _)
      simp [joinSegs, splitSlash_no_slash s this.2]
    | cons s2 segs2 =>
      rw [joinSegs, splitSlash_append,
        splitSlash_no_slash s (h2 s (List.mem_cons_self _ _)).2,
        ih (by simp) (fun x hx => h2 x (List.mem_cons_of_mem _ hx))]
      rfl

theorem joinSegs_ne_nil (segs : List (List Char)) (h1 : segs ≠ [])
    (h2 : ∀ x ∈ segs, x ≠ []) : joinSegs segs ≠ [] := by
  cases segs with
  | nil => exact absurd rfl h1
  | cons s segs =>
    cases segs with
    | nil => simpa [joinSegs] using h2 s (List.mem_cons_self _ _)
    | cons s2 segs2 =>
      simp only [joinSegs]
      have := h2 s (List.mem_cons_self _ _)
      simp [this]

theorem foldl_normStep_goodOrNil (segs : List (List Char)) :
    ∀ st, (∀ x ∈ segs, x = [] ∨ goodSeg x) →
      List.foldl (normStep false) st segs =
        (segs.filter (fun x => decide (x ≠ []))).reverse ++ st := by
  induction segs with
  | nil => intro st _; simp
  | cons s segs ih =>
    intro st h
    rcases h s (List.mem_cons_self _ _) with hs | hs
    · subst hs
      have hstep : normStep false st [] = st := by simp [normStep]
      rw [List.foldl_cons, hstep, ih st (fun x hx => h x (List.mem_cons_of_mem _ hx))]
      simp
    · have hstep : normStep false st s = s :: st := by
        unfold normStep
        rw [if_neg, if_neg hs.2.2.1]
        rintro (h0 | h0)
        · exact hs.1 h0
        · exact hs.2.1 h0
      rw [List.foldl_cons, hstep, ih (s :: st) (fun x hx => h x (List.mem_cons_of_mem _ hx))]
      simp [hs.1]

theorem normSegs_eq_filter (segs : List (List Char))
    (h : ∀ x ∈ segs, x = [] ∨ goodSeg x) :
    normSegs false segs = segs.filter (fun x => decide (x ≠ [])) := by
  unfold normSegs
  rw [foldl_normStep_goodOrNil segs [] h]
  simp

theorem foldl_normStep_good (segs : List (List Char)) :
    ∀ st, (∀ x ∈ segs, '/' ∉ x) → (∀ y ∈ st, goodSeg y) →
      ∀ y ∈ List.foldl (normStep false) st segs, goodSeg y := by
  induction segs with
  | nil => intro st _ hst y hy; exact hst y hy
  | cons s segs ih =>
    intro st hseg hst y hy
    refine ih (normStep false st s) (fun x hx => hseg x (List.mem_cons_of_mem _ hx)) ?_ y hy
    unfold normStep
    by_cases h1 : s = [] ∨ s = ['.']
    · rw [if_pos h1]; exact hst
    · rw [if_neg h1]
      by_cases h2 : s = ['.', '.']
      · rw [if_pos h2]
        cases st with
        | nil => simp
        | cons top rest =>
          by_cases h3 : top = ['.', '.']
          · simpa [h3] using hst
          · simp only [h3, if_false, if_neg h3]
            intro z hz
            exact hst z (List.mem_cons_of_mem _ hz)
      · rw [if_neg h2]
        intro z hz
        rcases List.mem_cons.mp hz with rfl | hz
        · simp only [not_or] at h1
          exact ⟨h1.1, h1.2, h2, hseg z (List.mem_cons_self _ _)⟩
        · exact hst z hz

theorem mem_normSegs_good (segs : List (List Char)) (h : ∀ x ∈ segs, '/' ∉ x) :
    ∀ y ∈ normSegs false segs, goodSeg y := by
  intro y hy
  unfold normSegs at hy
  exact foldl_normStep_good segs [] h (by simp) y (List.mem_reverse.mp hy)

theorem normSegs_nil_cons (segs : List (List Char)) :
    normSegs false ([] :: segs) = normSegs false segs := by
  unfold normSegs
  simp [normStep]

theorem normalizeChars_abs (t : List Char) :
    normalizeChars ('/' :: t) =
      if joinSegs (normSegs false (splitSlash t)) = [] then ['/']
      else ('/' :: joinSegs (normSegs false (splitSlash t))) ++
        (if ('/' :: t).getLast? == some '/' then ['/'] else []) := by
  simp only [normalizeChars, splitSlash_cons_slash, normSegs_nil_cons]
  simp [normSegs_nil_cons]

theorem normalizeChars_abs_shape (t : List Char) :
    ∃ segs r, (∀ x ∈ segs, goodSeg x) ∧ (r = [] ∨ r = ['/']) ∧ (segs = [] → r = []) ∧
      normalizeChars ('/' :: t) = '/' :: (joinSegs segs ++ r) := by
  by_cases h : joinSegs (normSegs false (splitSlash t)) = []
  · refine ⟨[], [], by simp, Or.inl rfl, fun _ => rfl, ?_⟩
    rw [normalizeChars_abs, if_pos h]
    simp [joinSegs]
  · refine ⟨normSegs false (splitSlash t),
      (if ('/' :: t).getLast? == some '/' then ['/'] else []),
      mem_normSegs_good _ (mem_splitSlash_no_slash t), ?_, ?_, ?_⟩
    · split
      · exact Or.inr rfl
      · exact Or.inl rfl
    · intro hs
      rw [hs] at h
      exact absurd rfl h
    · rw [normalizeChars_abs, if_neg h]
      simp

theorem stripDotDotGroups_slash (l : List Char) :
    stripDotDotGroups ('/' :: l) = '/' :: l := by
  cases l with
  | nil => rfl
  | cons b l2 =>
    cases l2 with
    | nil => rfl
    | cons c3 rest => simp [stripDotDotGroups]

theorem splitSlash_joinSegs_pad_elements (segs : List (List Char)) (r : List Char)
    (hg : ∀ x ∈ segs, goodSeg x) (hr : r = [] ∨ r = ['/']) :
    ∀ s ∈ splitSlash (joinSegs segs ++ r), s = [] ∨ goodSeg s := by
  by_cases h0 : segs = []
  · subst h0
    rcases hr with rfl | rfl
    · intro s hs; simp [joinSegs, splitSlash] at hs; simp [hs]
    · intro s hs; simp [joinSegs, splitSlash] at hs
      rcases hs with rfl | rfl
      simp
  · have hgood : ∀ x ∈ segs, x ≠ [] ∧ '/' ∉ x :=
      fun x hx => ⟨(hg x hx).1, (hg x hx).2.2.2⟩
    rcases hr with rfl | rfl
    · rw [List.append_nil, splitSlash_joinSegs segs h0 hgood]
      intro s hs
      exact Or.inr (hg s hs)
    · have : joinSegs segs ++ ['/'] = joinSegs segs ++ '/' :: [] := rfl
      rw [this, splitSlash_append, splitSlash_joinSegs segs h0 hgood]
      intro s hs
      rcases List.mem_append.mp hs with hs | hs
      · exact Or.inr (hg s hs)
      · simp [splitSlash] at hs
        simp [hs]

theorem splitSlash_joinSegs_pad_filter (segs : List (List Char)) (r : List Char)
    (hg : ∀ x ∈ segs, goodSeg x) (hr : r = [] ∨ r = ['/']) :
    (splitSlash (joinSegs segs ++ r)).filter (fun x => decide (x ≠ [])) = segs := by
  have hfilter : segs.filter (fun x => decide (x ≠ [])) = segs :=
    List.filter_eq_self.mpr (fun x hx => decide_eq_true (hg x hx).1)
  by_cases h0 : segs = []
  · subst h0
    rcases hr with rfl | rfl <;> simp [joinSegs, splitSlash]
  · have hgood : ∀ x ∈ segs, x ≠ [] ∧ '/' ∉ x :=
      fun x hx => ⟨(hg x hx).1, (hg x hx).2.2.2⟩
    rcases hr with rfl | rfl
    · rw [List.append_nil, splitSlash_joinSegs segs h0 hgood, hfilter]
    · have : joinSegs segs ++ ['/'] = joinSegs segs ++ '/' :: [] := rfl
      rw [this, splitSlash_append, splitSlash_joinSegs segs h0 hgood, List.filter_append,
        hfilter]
      simp [splitSlash]

/-- Claim C1: for every request path (which begins with `/`) and every
well-formed serving root, the file path produced by path resolution —
`sanitisePath`/`getFilepath` joined with the root by `handleStatic` — is
contained within the root: it extends the root's characters and the
extension contains no `..` (or `.`) segment. -/
theorem c1_static_path_contained (root p : String) (hr : goodRoot root = true)
    (hp : p.data.head? = some '/') :
    ∃ out rest, resolveStatic root p = some out ∧ out.data = root.data ++ rest ∧
      (rest = [] ∨ rest.head? = some '/') ∧
      ∀ s ∈ splitSlash rest, s ≠ ['.', '.'] ∧ s ≠ ['.'] := by
  -- decompose the root
  unfold goodRoot at hr
  rw [Bool.and_eq_true] at hr
  obtain ⟨tl, htl⟩ := (startsWithChars_iff root.data ['/']).mp hr.1
  have hroot : root.data = '/' :: tl := htl
  have hgood : ∀ x ∈ splitSlash tl, goodSeg x := by
    have := of_decide_eq_true hr.2
    rwa [hroot] at this
  have htl_ne : tl ≠ [] := by
    intro h0
    subst h0
    have := hgood [] (by simp [splitSlash])
    exact this.1 rfl
  -- decompose the request path
  obtain ⟨u, hpd⟩ : ∃ u, p.data = '/' :: u := by
    cases hpu : p.data with
    | nil => rw [hpu] at hp; simp at hp
    | cons c u =>
      rw [hpu] at hp
      simp only [List.head?] at hp
      exact ⟨u, by rw [Option.some_inj.mp hp]⟩
  -- normalize the request path
  obtain ⟨segs, r, hsgood, hr01, himp, hnorm⟩ := normalizeChars_abs_shape u
  have hsan : sanitisePathChars p.data = '/' :: (joinSegs segs ++ r) := by
    unfold sanitisePathChars
    rw [hpd, hnorm, stripDotDotGroups_slash]
  have hres : resolveStatic root p =
      some (String.mk (joinChars root.data ('/' :: (joinSegs segs ++ r)))) := by
    unfold resolveStatic getFilepath sanitisePath
    simp [hsan]
  -- the join normalizes the concatenation
  have hjoin : joinChars root.data ('/' :: (joinSegs segs ++ r)) =
      normalizeChars (root.data ++ '/' :: ('/' :: (joinSegs segs ++ r))) := by
    unfold joinChars
    rw [if_neg (by rw [hroot]; simp), if_neg (by simp)]
  have hwhole : root.data ++ '/' :: ('/' :: (joinSegs segs ++ r)) =
      '/' :: (tl ++ '/' :: ('/' :: (joinSegs segs ++ r))) := by
    rw [hroot]; rfl
  have hsplit : splitSlash (tl ++ '/' :: ('/' :: (joinSegs segs ++ r))) =
      splitSlash tl ++ ([] :: splitSlash (joinSegs segs ++ r)) := by
    rw [splitSlash_append, splitSlash_cons_slash]
  have hinner : normSegs false (splitSlash tl ++ ([] :: splitSlash (joinSegs segs ++ r))) =
      splitSlash tl ++ segs := by
    rw [normSegs_eq_filter]
    · rw [List.filter_append]
      have h1 : (splitSlash tl).filter (fun x => decide (x ≠ [])) = splitSlash tl :=
        List.filter_eq_self.mpr (fun x hx => decide_eq_true (hgood x hx).1)
      have h2 : (([] :: splitSlash (joinSegs segs ++ r)) : List (List Char)).filter
          (fun x => decide (x ≠ [])) = segs := by
        rw [List.filter_cons, if_neg (by simp)]
        exact splitSlash_joinSegs_pad_filter segs r hsgood hr01
      rw [h1, h2]
    · intro x hx
      rcases List.mem_append.mp hx with hx | hx
      · exact Or.inr (hgood x hx)
      · rcases List.mem_cons.mp hx with rfl | hx
        · exact Or.inl rfl
        · exact splitSlash_joinSegs_pad_elements segs r hsgood hr01 x hx
  -- assemble through normalizeChars_abs on the concatenation
  have habs := normalizeChars_abs (tl ++ '/' :: ('/' :: (joinSegs segs ++ r)))
  rw [hsplit, hinner] at habs
  have hout : (String.mk (joinChars root.data ('/' :: (joinSegs segs ++ r)))).data =
      normalizeChars ('/' :: (tl ++ '/' :: ('/' :: (joinSegs segs ++ r)))) := by
    show joinChars root.data ('/' :: (joinSegs segs ++ r)) = _
    rw [hjoin, hwhole]
  set tr : List Char :=
    (if (('/' :: (tl ++ '/' :: ('/' :: (joinSegs segs ++ r)))).getLast? == some '/') = true
      then ['/'] else []) with htrdef
  have htr : tr = [] ∨ tr = ['/'] := by
    rw [htrdef]
    split
    · exact Or.inr rfl
    · exact Or.inl rfl
  by_cases hseg0 : segs = []
  · -- empty remainder: the result is the root itself, possibly with a trailing slash
    subst hseg0
    have hbody : joinSegs (splitSlash tl ++ ([] : List (List Char))) = tl := by
      rw [List.append_nil, joinSegs_splitSlash]
    rw [hbody, if_neg htl_ne] at habs
    refine ⟨String.mk (joinChars root.data ('/' :: (joinSegs [] ++ r))), tr, hres, ?_, ?_, ?_⟩
    · rw [hout, habs, hroot]
    · rcases htr with h | h
      · exact Or.inl h
      · rw [h]; exact Or.inr rfl
    · intro s hs
      rcases htr with h | h
      · rw [h] at hs
        simp [splitSlash] at hs
        simp [hs]
      · rw [h] at hs
        simp [splitSlash] at hs
        rcases hs with rfl | rfl
        simp
  · -- nonempty remainder below the root
    have hbody : joinSegs (splitSlash tl ++ segs) = tl ++ '/' :: joinSegs segs := by
      rw [joinSegs_append _ segs hseg0 (splitSlash_ne_nil tl), joinSegs_splitSlash]
    have hbody_ne : tl ++ '/' :: joinSegs segs ≠ [] := by
      intro h0
      exact htl_ne (List.append_eq_nil.mp h0).1
    rw [hbody, if_neg hbody_ne] at habs
    refine ⟨String.mk (joinChars root.data ('/' :: (joinSegs segs ++ r))),
      '/' :: (joinSegs segs ++ tr), hres, ?_, ?_, ?_⟩
    · rw [hout, habs, hroot]
      simp [List.append_assoc]
    · exact Or.inr rfl
    · intro s hs
      rw [splitSlash_cons_slash] at hs
      rcases List.mem_cons.mp hs with rfl | hs
      · simp
      · rcases splitSlash_joinSegs_pad_elements segs tr hsgood htr s hs with rfl | hgs
        · simp
        · exact ⟨hgs.2.2.1, hgs.2.1⟩

/-- Witness for C1 at the claim's example: `/../../etc/passwd` against the
root `/srv/site` resolves under `/srv/site`. -/
theorem c1_static_path_contained_witness :
    goodRoot "/srv/site" = true ∧ ("/../../etc/passwd" : String).data.head? = some '/' ∧
    (∃ out rest, resolveStatic "/srv/site" "/../../etc/passwd" = some out ∧
      out.data = ("/srv/site" : String).data ++ rest ∧
      (rest = [] ∨ rest.head? = some '/') ∧
      ∀ s ∈ splitSlash rest, s ≠ ['.', '.'] ∧ s ≠ ['.']) :=
  ⟨by decide, by decide,
    c1_static_path_contained "/srv/site" "/../../etc/passwd" (by decide) (by decide)⟩

end Serve
